import Mathlib

set_option maxHeartbeats 1000000

/-!
Shallow embedding of src/dirtree.c: a recursive directory-tree walker that
prints every visited entry and accumulates per-type counts plus size/block
totals in a struct summary accumulator, with a multi-root driver in main.

Strings (file names, paths) are modelled as lists of bytes (List Nat).
The filesystem is modelled as the view the program obtains through
opendir/readdir: a node is either unopenable (opendir fails) or a directory
with a raw listing; each listed entry carries the dirent fields the code
reads (d_name, d_type, d_reclen) plus the stat metadata (st_size, st_blocks)
of the underlying file, which the code never consults but which some claims
refer to. Observable behaviour is the final summary plus a trace of events
(successful opendir, printf of an entry line, closedir). Main's root
splitting is modelled by splitRoot, which follows glibc basename and
dirname acting in sequence on the one strdup buffer main hands to both,
including the in-place NUL writes through which the two calls interact.
-/

namespace Dirtree

/-- Byte strings: names and paths are lists of byte values. -/
abbrev Str := List Nat

/-- The path separator byte, ASCII slash. -/
def slash : Nat := 47

/-- Name of the current-directory pseudo-entry, ASCII dot. -/
def dot : Str := [46]

/-- Name of the parent-directory pseudo-entry. -/
def dotdot : Str := [46, 46]

/-- dirent d_type code for an unknown type. -/
def DT_UNKNOWN : Nat := 0

/-- dirent d_type code for a FIFO. -/
def DT_FIFO : Nat := 1

/-- dirent d_type code for a character device. -/
def DT_CHR : Nat := 2

/-- dirent d_type code for a directory. -/
def DT_DIR : Nat := 4

/-- dirent d_type code for a block device. -/
def DT_BLK : Nat := 6

/-- dirent d_type code for a regular file. -/
def DT_REG : Nat := 8

/-- dirent d_type code for a symbolic link. -/
def DT_LNK : Nat := 10

/-- dirent d_type code for a socket. -/
def DT_SOCK : Nat := 12

/-- Data of one directory entry: the dirent fields the source reads (d_name,
d_type, d_reclen) together with the stat metadata of the underlying file
(logical byte size st_size and 512-byte block count st_blocks). The source
never consults st_size or st_blocks; they are carried so that claims about
the file's true metadata can be stated against what the code computes. -/
structure DEntData where
  d_name : Str
  d_type : Nat
  d_reclen : Nat
  st_size : Nat
  st_blocks : Nat
deriving DecidableEq

/-- A filesystem node as seen through opendir at a given path: either the
path cannot be opened as a directory (nonexistent, unreadable, or not a
directory), or it is a directory with a raw readdir listing; each child
entry is paired with the node that its own path designates. A symbolic
link to a directory is an entry with d_type DT_LNK whose node may well be
a dir node, since opendir on the link's path would follow it. -/
inductive Node where
  | unopenable : Node
  | dir : List (DEntData × Node) → Node

/-- The struct summary of the source (dirtree.c lines 33-43). -/
structure Summary where
  dirs : Nat
  files : Nat
  links : Nat
  fifos : Nat
  socks : Nat
  size : Nat
  blocks : Nat
deriving DecidableEq

/-- The all-zero summary produced by memset to 0. -/
def zeroSummary : Summary := ⟨0, 0, 0, 0, 0, 0, 0⟩

/-- Field-wise addition of summaries, as done by main for the grand total
(dirtree.c lines 332-338). -/
def addSummary (a b : Summary) : Summary :=
  ⟨a.dirs + b.dirs, a.files + b.files, a.links + b.links, a.fifos + b.fifos,
   a.socks + b.socks, a.size + b.size, a.blocks + b.blocks⟩

/-- Observable events of a traversal: a successful opendir of a path, one
printf of an entry name (one printed entry line), and a closedir. -/
inductive Ev where
  | eopen : Str → Ev
  | eprint : Str → Ev
  | eclose : Str → Ev
deriving DecidableEq

/-- The C strcmp on byte strings, collapsed to its sign: -1, 0 or 1.
Comparison is byte-wise, shorter prefixes first. -/
def strcmpL : Str → Str → Int
  | [], [] => 0
  | [], _ :: _ => -1
  | _ :: _, [] => 1
  | a :: as, b :: bs => if a < b then -1 else if b < a then 1 else strcmpL as bs

/-- Embedding of dirent_compare (dirtree.c lines 84-97): an entry of d_type
DT_DIR precedes any entry of another d_type; otherwise compare names with
strcmp. -/
def dirent_compare (e1 e2 : DEntData) : Int :=
  if e1.d_type = DT_DIR ∧ e2.d_type ≠ DT_DIR then -1
  else if e1.d_type ≠ DT_DIR ∧ e2.d_type = DT_DIR then 1
  else strcmpL e1.d_name e2.d_name

/-- Order on listing elements induced by dirent_compare; used to model the
qsort calls of processDir (dirtree.c lines 168 and 171). -/
def dcLe (a b : DEntData × Node) : Prop := dirent_compare a.1 b.1 ≤ 0

instance : DecidableRel dcLe := fun a b => Int.decLe (dirent_compare a.1 b.1) 0

/-- The collection loop of processDir (dirtree.c lines 147-157): keep every
readdir entry except the pseudo-entries "." and "..". -/
def collectEntries (l : List (DEntData × Node)) : List (DEntData × Node) :=
  l.filter fun e => decide (e.1.d_name ≠ dot ∧ e.1.d_name ≠ dotdot)

/-- Model of the qsort calls of processDir (dirtree.c lines 167-171): a
deterministic sort of the collected entries by dirent_compare. The source
calls qsort twice with the same comparator; sorting twice with one
comparator yields a comparator-sorted permutation, modelled by one sort. -/
def sortEntries (l : List (DEntData × Node)) : List (DEntData × Node) :=
  List.insertionSort dcLe l

/-- Test of the C condition pstr[strlen(pstr)-1] == the slash byte. -/
def endsInSlash (p : Str) : Bool := p.getLast? == some slash

/-- Path composition of processDir (dirtree.c lines 122-133): copy pstr,
append a slash only when pstr is nonempty and does not already end in a
slash, then append dn. -/
def pathJoin (pstr dn : Str) : Str :=
  if 0 < pstr.length && !endsInSlash pstr then pstr ++ slash :: dn
  else pstr ++ dn

/-- The switch statement of processDir (dirtree.c lines 180-198): increment
one counter selected by d_type; in the DT_REG arm additionally add the
dirent record length d_reclen to size. No arm ever touches blocks, and a
d_type outside the five cases falls through without touching anything. -/
def updateStats (s : Summary) (d : DEntData) : Summary :=
  if d.d_type = DT_REG then
    { s with files := s.files + 1, size := s.size + d.d_reclen }
  else if d.d_type = DT_DIR then { s with dirs := s.dirs + 1 }
  else if d.d_type = DT_LNK then { s with links := s.links + 1 }
  else if d.d_type = DT_FIFO then { s with fifos := s.fifos + 1 }
  else if d.d_type = DT_SOCK then { s with socks := s.socks + 1 }
  else s

/-- Byte-wise lexicographic strict order on byte strings. -/
def byteLexLt (a b : Str) : Prop := List.Lex (· < ·) a b

mutual

/-- Embedding of processDir (dirtree.c lines 117-207). Arguments mirror the
C signature (dn, pstr, the statistics accumulator, flags); the node that
opendir of the composed path yields is passed explicitly in place of the
real filesystem. Returns the final accumulator and the trace of events. -/
def processDir (dn pstr : Str) (n : Node) (s : Summary) (flags : Nat) :
    Summary × List Ev :=
  let newPath := pathJoin pstr dn
  match n with
  | .unopenable => (s, [])
  | .dir raw =>
    let fl := collectEntries raw
    if fl.length = 0 then (s, [Ev.eopen newPath, Ev.eclose newPath])
    else
      let r := visitEntries (sortEntries fl) newPath s flags
      (r.1, Ev.eopen newPath :: (r.2 ++ [Ev.eclose newPath]))
termination_by sizeOf n
decreasing_by
  simp_wf
  have hp : ∀ l1 l2 : List (DEntData × Node), l1.Perm l2 → sizeOf l1 = sizeOf l2 := by
    intro l1 l2 h
    induction h with
    | nil => rfl
    | cons x _ ih => simp [ih]
    | swap x y l => simp; omega
    | trans _ _ ih1 ih2 => omega
  have hf : ∀ (p : DEntData × Node → Bool) (L : List (DEntData × Node)),
      sizeOf (L.filter p) ≤ sizeOf L := by
    intro p L
    induction L with
    | nil => simp [List.filter]
    | cons a t ih => simp only [List.filter]; cases p a <;> simp <;> omega
  have h1 : sizeOf (sortEntries (collectEntries raw)) = sizeOf (collectEntries raw) :=
    hp _ _ (List.perm_insertionSort dcLe (collectEntries raw))
  have h2 : sizeOf (collectEntries raw) ≤ sizeOf raw := hf _ raw
  omega

/-- The visiting loop of processDir (dirtree.c lines 174-204): print each
entry, update the statistics by its d_type, and recurse when the entry has
d_type DT_DIR and is not a pseudo-entry. -/
def visitEntries (l : List (DEntData × Node)) (newPath : Str) (s : Summary)
    (flags : Nat) : Summary × List Ev :=
  match l with
  | [] => (s, [])
  | (d, cn) :: rest =>
    let s1 := updateStats s d
    let r1 :=
      if d.d_type = DT_DIR ∧ d.d_name ≠ dotdot ∧ d.d_name ≠ dot then
        processDir d.d_name newPath cn s1 flags
      else (s1, [])
    let r2 := visitEntries rest newPath r1.1 flags
    (r2.1, Ev.eprint d.d_name :: (r1.2 ++ r2.2))
termination_by sizeOf l
decreasing_by
  all_goals simp_wf <;> omega

end

/-- Processing of one child inside the visiting loop: the statistics update
followed, for directory-typed non-pseudo entries, by the recursive call
(dirtree.c lines 179-203). -/
def childStep (d : DEntData) (cn : Node) (p : Str) (s : Summary) (flags : Nat) :
    Summary × List Ev :=
  if d.d_type = DT_DIR ∧ d.d_name ≠ dotdot ∧ d.d_name ≠ dot then
    processDir d.d_name p cn (updateStats s d) flags
  else (updateStats s d, [])

/-- Sum of the five per-type counters of a summary. -/
def countsSum (s : Summary) : Nat := s.files + s.dirs + s.links + s.fifos + s.socks

/-- Number of printed entry lines in a trace. -/
def printsCount (evs : List Ev) : Nat :=
  evs.countP fun e => match e with | Ev.eprint _ => true | _ => false

/-- Number of successful opendir events in a trace. -/
def opensCount (evs : List Ev) : Nat :=
  evs.countP fun e => match e with | Ev.eopen _ => true | _ => false

/-- Number of closedir events in a trace. -/
def closesCount (evs : List Ev) : Nat :=
  evs.countP fun e => match e with | Ev.eclose _ => true | _ => false

/-- Whether a d_type is one of the five types the switch statement counts. -/
def tracked (d : DEntData) : Bool :=
  d.d_type == DT_REG || d.d_type == DT_DIR || d.d_type == DT_LNK ||
  d.d_type == DT_FIFO || d.d_type == DT_SOCK

mutual

/-- Whether every entry in a filesystem tree has one of the five counted
d_types. -/
def allTracked : Node → Bool
  | Node.unopenable => true
  | Node.dir l => allTrackedL l

/-- List form of allTracked. -/
def allTrackedL : List (DEntData × Node) → Bool
  | [] => true
  | (d, n) :: rest => tracked d && allTracked n && allTrackedL rest

end

mutual

/-- Removal of every subtree that is reachable only through an entry whose
d_type is not DT_DIR, for instance the target directory of a symbolic
link. -/
def prune : Node → Node
  | Node.unopenable => Node.unopenable
  | Node.dir l => Node.dir (pruneL l)

/-- List form of prune. -/
def pruneL : List (DEntData × Node) → List (DEntData × Node)
  | [] => []
  | (d, n) :: rest =>
      (d, if d.d_type = DT_DIR then prune n else Node.unopenable) :: pruneL rest

end

/-- Pruning of one listing element: the subtree behind an entry whose d_type
is not DT_DIR is replaced by an unopenable node. -/
def pruneEnt (e : DEntData × Node) : DEntData × Node :=
  (e.1, if e.1.d_type = DT_DIR then prune e.2 else Node.unopenable)

/-- Byte string without its trailing slashes. -/
def stripTrailSlashes (p : Str) : Str :=
  (p.reverse.dropWhile fun b => b == slash).reverse

/-- Length of the run of trailing slashes of a byte string. -/
def trailingSlashRun (p : Str) : Nat :=
  (p.reverse.takeWhile fun b => b == slash).length

/-- Number of consecutive slash bytes immediately before position j of the
buffer, the walk glibc dirname performs with its runp pointer. -/
def backSlashes (l : Str) : Nat → Nat
  | 0 => 0
  | j + 1 => if l.getD j 0 = slash then backSlashes l j + 1 else 0

/-- Index of the last slash byte of a buffer, the strrchr of the dirname
implementation. -/
def lastSlashIdx : Str → Option Nat
  | [] => none
  | b :: rest =>
    match lastSlashIdx rest with
    | some j => some (j + 1)
    | none => if b = slash then some 0 else none

/-- The dirname half of main's aliased split (dirtree.c line 325), modelled
after glibc dirname acting on the shared buffer bufA that basename already
processed, with lastPtr the offset basename returned into that buffer.
dirname locates the last slash, backs over a slash run, and writes a
terminating NUL: at the run start for a normal path, or at offset 1
(offset 2 for a path opening with exactly two slashes) when the path's
only slashes lead it. The parent is the buffer up to that NUL. The leaf
main keeps is the C string now at lastPtr: when the NUL lands at or after
lastPtr it cuts that string short, in particular to the empty string when
it lands exactly on lastPtr, which is the aliasing the program suffers
for single-component absolute roots. -/
def dirnamePhase (bufA : Str) (lastPtr : Nat) : Str × Str :=
  let ls1 :=
    match lastSlashIdx bufA with
    | some ls =>
        if ls ≠ 0 ∧ ls + 1 = bufA.length then
          if ls - backSlashes bufA ls ≠ 0 then
            lastSlashIdx (bufA.take (ls - backSlashes bufA ls))
          else some ls
        else some ls
    | none => none
  match ls1 with
  | none => (bufA.drop lastPtr, dot)
  | some ls2 =>
      let w :=
        if ls2 - backSlashes bufA ls2 = 0 then (if ls2 = 1 then 2 else 1)
        else ls2 - backSlashes bufA ls2
      (if lastPtr ≤ w then (bufA.take w).drop lastPtr else bufA.drop lastPtr,
       bufA.take w)

/-- Model of main's root splitting (dirtree.c lines 321-326): POSIX basename
and then dirname applied to the same strdup buffer, as glibc executes them,
returning the (leaf name, parent path) pair main passes to processDir.
basename first: an empty path gives the static dot string for both, a path
without slash is its own leaf with parent dot, a path with trailing
slashes is truncated in place before the leaf offset is taken, an
all-slash path keeps its last slash as the leaf. dirname then mutates the
same buffer, so its NUL write can cut the leaf string short; dirnamePhase
carries that interaction. -/
def splitRoot (p : Str) : Str × Str :=
  if p = [] then (dot, dot)
  else
    match lastSlashIdx p with
    | none => (p, dot)
    | some j =>
      if j + 1 < p.length then dirnamePhase p (j + 1)
      else
        let q := p.length - trailingSlashRun p
        if 0 < q then
          let bufA := p.take q
          dirnamePhase bufA
            (q - ((bufA.reverse.takeWhile fun b => !(b == slash)).length))
        else dirnamePhase p (p.length - 1)

/-- Processing of one root by main (dirtree.c lines 312-338): split the root
path with the aliased basename-then-dirname pair and run processDir on a
freshly zeroed per-root accumulator. The node rn.2 stands for what opendir
yields at the composed path pathJoin of the split's parent and leaf. -/
def rootOutput (flags : Nat) (rn : Str × Node) : Summary × List Ev :=
  processDir (splitRoot rn.1).1 (splitRoot rn.1).2 rn.2 zeroSummary flags

/-- The root loop of main (dirtree.c lines 310-351): process each root with
a fresh per-root accumulator and add each per-root result field-wise into
the running grand total tstat. The list of per-root results is returned
alongside for observation. -/
def runRootsAux (flags : Nat) (tstat : Summary) (acc : List (Summary × List Ev)) :
    List (Str × Node) → Summary × List (Summary × List Ev)
  | [] => (tstat, acc)
  | rn :: rest =>
      runRootsAux flags (addSummary tstat (rootOutput flags rn).1)
        (acc ++ [rootOutput flags rn]) rest

/-- Main's whole multi-root processing, starting from a zeroed grand total. -/
def runRoots (roots : List (Str × Node)) (flags : Nat) :
    Summary × List (Summary × List Ev) :=
  runRootsAux flags zeroSummary [] roots

/-- Field-wise sum of a list of summaries. -/
def sumSummaries (L : List Summary) : Summary := L.foldr addSummary zeroSummary

/-- A concrete regular-file entry named f: dirent record length 24 bytes,
logical file size 1000 bytes, 8 blocks of 512 bytes. -/
def eREG : DEntData := ⟨[102], DT_REG, 24, 1000, 8⟩

/-- A concrete directory entry named d. -/
def eDIR : DEntData := ⟨[100], DT_DIR, 16, 4096, 8⟩

/-- A concrete character-device entry named c. -/
def eCHR : DEntData := ⟨[99], DT_CHR, 20, 0, 0⟩

/-- A concrete entry named u whose d_type is DT_UNKNOWN although the
underlying file is a regular file of 500 bytes: the shape a filesystem
that does not fill the dirent d_type field produces. -/
def eUNK : DEntData := ⟨[117], DT_UNKNOWN, 24, 500, 2⟩

/-- A concrete symbolic-link entry named l. -/
def eLNK : DEntData := ⟨[108], DT_LNK, 18, 3, 1⟩

/-- A concrete two-level tree: a root directory holding the directory d,
which holds the regular file f. -/
def wTree : Node := Node.dir [(eDIR, Node.dir [(eREG, Node.unopenable)])]

/-- The bytes of the root path /nonexistent: a single-component absolute
path that does not exist on the filesystem. -/
def badRoot : Str := [47, 110, 111, 110, 101, 120, 105, 115, 116, 101, 110, 116]

theorem processDir_unopenable (dn pstr : Str) (s : Summary) (flags : Nat) :
    processDir dn pstr Node.unopenable s flags = (s, []) := by
  simp [processDir]

theorem processDir_dir (dn pstr : Str) (raw : List (DEntData × Node))
    (s : Summary) (flags : Nat) :
    processDir dn pstr (Node.dir raw) s flags =
      if (collectEntries raw).length = 0 then
        (s, [Ev.eopen (pathJoin pstr dn), Ev.eclose (pathJoin pstr dn)])
      else
        ((visitEntries (sortEntries (collectEntries raw)) (pathJoin pstr dn) s flags).1,
         Ev.eopen (pathJoin pstr dn) ::
           ((visitEntries (sortEntries (collectEntries raw)) (pathJoin pstr dn) s flags).2 ++
            [Ev.eclose (pathJoin pstr dn)])) := by
  rw [processDir]

theorem visitEntries_nil (p : Str) (s : Summary) (flags : Nat) :
    visitEntries [] p s flags = (s, []) := by
  simp [visitEntries]

theorem visitEntries_cons (d : DEntData) (cn : Node)
    (rest : List (DEntData × Node)) (p : Str) (s : Summary) (flags : Nat) :
    visitEntries ((d, cn) :: rest) p s flags =
      ((visitEntries rest p (childStep d cn p s flags).1 flags).1,
       Ev.eprint d.d_name ::
         ((childStep d cn p s flags).2 ++
          (visitEntries rest p (childStep d cn p s flags).1 flags).2)) := by
  rw [visitEntries, childStep]

theorem strcmpL_eq_zero_iff : ∀ a b : Str, strcmpL a b = 0 ↔ a = b := by
  intro a
  induction a with
  | nil => intro b; cases b <;> simp [strcmpL]
  | cons x xs ih =>
    intro b
    cases b with
    | nil => simp [strcmpL]
    | cons y ys =>
      simp only [strcmpL]
      rcases Nat.lt_trichotomy x y with h | h | h
      · rw [if_pos h]
        simp only [List.cons.injEq]
        constructor
        · intro hc; exact absurd hc (by decide)
        · rintro ⟨hx, -⟩; omega
      · subst h
        rw [if_neg (lt_irrefl x), if_neg (lt_irrefl x)]
        rw [ih ys]
        simp
      · rw [if_neg (by omega), if_pos h]
        simp only [List.cons.injEq]
        constructor
        · intro hc; exact absurd hc (by decide)
        · rintro ⟨hx, -⟩; omega

theorem strcmpL_eq_neg_one_iff : ∀ a b : Str, strcmpL a b = -1 ↔ byteLexLt a b := by
  intro a
  induction a with
  | nil =>
    intro b
    cases b with
    | nil =>
      simp only [strcmpL, byteLexLt]
      constructor
      · intro hc; exact absurd hc (by decide)
      · intro hl; exact absurd hl (List.Lex.not_nil_right _ _)
    | cons y ys =>
      simp only [strcmpL, byteLexLt]
      exact ⟨fun _ => List.Lex.nil, fun _ => trivial⟩
  | cons x xs ih =>
    intro b
    cases b with
    | nil =>
      simp only [strcmpL, byteLexLt]
      constructor
      · intro hc; exact absurd hc (by decide)
      · intro hl; exact absurd hl (List.Lex.not_nil_right _ _)
    | cons y ys =>
      simp only [strcmpL, byteLexLt]
      rcases Nat.lt_trichotomy x y with h | h | h
      · rw [if_pos h]
        exact ⟨fun _ => List.Lex.rel h, fun _ => rfl⟩
      · subst h
        rw [if_neg (lt_irrefl x), if_neg (lt_irrefl x)]
        rw [ih ys]
        exact ⟨fun hl => List.Lex.cons hl, fun hl => List.Lex.cons_iff.mp hl⟩
      · rw [if_neg (by omega), if_pos h]
        constructor
        · intro hc; exact absurd hc (by decide)
        · intro hl
          cases hl with
          | cons h2 => omega
          | rel h2 => omega

theorem strcmpL_swap : ∀ a b : Str, strcmpL b a = -strcmpL a b := by
  intro a
  induction a with
  | nil => intro b; cases b <;> simp [strcmpL]
  | cons x xs ih =>
    intro b
    cases b with
    | nil => simp [strcmpL]
    | cons y ys =>
      simp only [strcmpL]
      rcases Nat.lt_trichotomy x y with h | h | h
      · have h2 : ¬y < x := by omega
        simp [h, h2]
      · subst h
        simp only [lt_irrefl, if_false]
        exact ih ys
      · have h2 : ¬x < y := by omega
        simp [h, h2]

theorem strcmpL_eq_one_iff (a b : Str) : strcmpL a b = 1 ↔ byteLexLt b a := by
  have hs := strcmpL_swap a b
  have h2 := strcmpL_eq_neg_one_iff b a
  constructor
  · intro h1; exact h2.mp (by omega)
  · intro h1; have := h2.mpr h1; omega

theorem strcmpL_cases (a b : Str) :
    strcmpL a b = -1 ∨ strcmpL a b = 0 ∨ strcmpL a b = 1 := by
  have hti : IsTrichotomous Str byteLexLt :=
    inferInstanceAs (IsTrichotomous (List Nat) (List.Lex (· < ·)))
  rcases trichotomous_of byteLexLt a b with h | h | h
  · left; exact (strcmpL_eq_neg_one_iff a b).mpr h
  · subst h; right; left; exact (strcmpL_eq_zero_iff a a).mpr rfl
  · right; right; exact (strcmpL_eq_one_iff a b).mpr h

theorem strcmpL_le_zero_iff (a b : Str) :
    strcmpL a b ≤ 0 ↔ (a = b ∨ byteLexLt a b) := by
  constructor
  · intro hle
    rcases strcmpL_cases a b with h | h | h
    · right; exact (strcmpL_eq_neg_one_iff a b).mp h
    · left; exact (strcmpL_eq_zero_iff a b).mp h
    · omega
  · rintro (rfl | h)
    · rw [(strcmpL_eq_zero_iff a a).mpr rfl]
    · rw [(strcmpL_eq_neg_one_iff a b).mpr h]; decide

theorem strcmpL_trans (a b c : Str) (h1 : strcmpL a b ≤ 0) (h2 : strcmpL b c ≤ 0) :
    strcmpL a c ≤ 0 := by
  rw [strcmpL_le_zero_iff] at h1 h2 ⊢
  have hts : IsTrans Str byteLexLt :=
    inferInstanceAs (IsTrans (List Nat) (List.Lex (· < ·)))
  rcases h1 with rfl | h1
  · exact h2
  · rcases h2 with rfl | h2
    · right; exact h1
    · right; exact IsTrans.trans a b c h1 h2

theorem dc_self (a : DEntData) : dirent_compare a a = 0 := by
  simp [dirent_compare, strcmpL_eq_zero_iff]

theorem dc_dir_first (a b : DEntData) (ha : a.d_type = DT_DIR) (hb : b.d_type ≠ DT_DIR) :
    dirent_compare a b = -1 ∧ dirent_compare b a = 1 := by
  constructor
  · rw [dirent_compare, if_pos ⟨ha, hb⟩]
  · rw [dirent_compare, if_neg (fun h => hb h.1), if_pos ⟨hb, ha⟩]

theorem dc_same_cat (a b : DEntData) (h : a.d_type = DT_DIR ↔ b.d_type = DT_DIR) :
    dirent_compare a b = strcmpL a.d_name b.d_name := by
  rw [dirent_compare, if_neg (by tauto), if_neg (by tauto)]

theorem dc_total (a b : DEntData) : dirent_compare a b ≤ 0 ∨ dirent_compare b a ≤ 0 := by
  by_cases ha : a.d_type = DT_DIR <;> by_cases hb : b.d_type = DT_DIR
  · rw [dc_same_cat a b (by tauto), dc_same_cat b a (by tauto)]
    rcases strcmpL_cases a.d_name b.d_name with h | h | h
    · left; omega
    · left; omega
    · right
      have := strcmpL_swap a.d_name b.d_name
      omega
  · left
    rw [(dc_dir_first a b ha hb).1]
    decide
  · right
    rw [(dc_dir_first b a hb ha).1]
    decide
  · rw [dc_same_cat a b (by tauto), dc_same_cat b a (by tauto)]
    rcases strcmpL_cases a.d_name b.d_name with h | h | h
    · left; omega
    · left; omega
    · right
      have := strcmpL_swap a.d_name b.d_name
      omega

theorem dc_trans (a b c : DEntData) (h1 : dirent_compare a b ≤ 0)
    (h2 : dirent_compare b c ≤ 0) : dirent_compare a c ≤ 0 := by
  by_cases ha : a.d_type = DT_DIR <;> by_cases hb : b.d_type = DT_DIR <;>
    by_cases hc : c.d_type = DT_DIR
  · rw [dc_same_cat a b (by tauto)] at h1
    rw [dc_same_cat b c (by tauto)] at h2
    rw [dc_same_cat a c (by tauto)]
    exact strcmpL_trans _ _ _ h1 h2
  · rw [(dc_dir_first a c ha hc).1]; decide
  · rw [(dc_dir_first c b hc hb).2] at h2; omega
  · rw [(dc_dir_first a c ha hc).1]; decide
  · rw [(dc_dir_first b a hb ha).2] at h1; omega
  · rw [(dc_dir_first b a hb ha).2] at h1; omega
  · rw [(dc_dir_first c b hc hb).2] at h2; omega
  · rw [dc_same_cat a b (by tauto)] at h1
    rw [dc_same_cat b c (by tauto)] at h2
    rw [dc_same_cat a c (by tauto)]
    exact strcmpL_trans _ _ _ h1 h2

theorem sortEntries_perm (l : List (DEntData × Node)) : (sortEntries l).Perm l :=
  List.perm_insertionSort dcLe l

theorem sortEntries_sorted (l : List (DEntData × Node)) :
    List.Sorted dcLe (sortEntries l) := by
  have ht : IsTotal (DEntData × Node) dcLe := ⟨fun a b => dc_total a.1 b.1⟩
  have htr : IsTrans (DEntData × Node) dcLe := ⟨fun a b c => dc_trans a.1 b.1 c.1⟩
  exact List.sorted_insertionSort dcLe l

theorem dc_eq_zero (a b : DEntData) (h : dirent_compare a b = 0) :
    a.d_name = b.d_name ∧ (a.d_type = DT_DIR ↔ b.d_type = DT_DIR) := by
  by_cases ha : a.d_type = DT_DIR <;> by_cases hb : b.d_type = DT_DIR
  · rw [dc_same_cat a b (by tauto)] at h
    exact ⟨(strcmpL_eq_zero_iff _ _).mp h, by tauto⟩
  · rw [(dc_dir_first a b ha hb).1] at h; omega
  · rw [(dc_dir_first b a hb ha).2] at h; omega
  · rw [dc_same_cat a b (by tauto)] at h
    exact ⟨(strcmpL_eq_zero_iff _ _).mp h, by tauto⟩

/-- C3: the comparator applied to sibling entries before visiting induces a
total order: it is total and transitive, a comparison of zero forces equal
names and equal directory status, every DT_DIR entry strictly precedes
every entry of another d_type, and two entries of the same category
compare exactly by byte-wise lexicographic comparison of their names; the
sortEntries pass that processDir runs before the visiting loop produces a
permutation of the children sorted by this order. -/
theorem c3_sort_order :
    (∀ a b : DEntData, dirent_compare a b ≤ 0 ∨ dirent_compare b a ≤ 0) ∧
    (∀ a b c : DEntData,
      dirent_compare a b ≤ 0 → dirent_compare b c ≤ 0 → dirent_compare a c ≤ 0) ∧
    (∀ a : DEntData, dirent_compare a a = 0) ∧
    (∀ a b : DEntData, dirent_compare a b = 0 →
      a.d_name = b.d_name ∧ (a.d_type = DT_DIR ↔ b.d_type = DT_DIR)) ∧
    (∀ a b : DEntData, a.d_type = DT_DIR → b.d_type ≠ DT_DIR →
      dirent_compare a b = -1 ∧ dirent_compare b a = 1) ∧
    (∀ a b : DEntData, (a.d_type = DT_DIR ↔ b.d_type = DT_DIR) →
      dirent_compare a b = strcmpL a.d_name b.d_name ∧
      (dirent_compare a b < 0 ↔ byteLexLt a.d_name b.d_name)) ∧
    (∀ l : List (DEntData × Node),
      (sortEntries l).Perm l ∧ List.Sorted dcLe (sortEntries l)) := by
  refine ⟨dc_total, dc_trans, dc_self, dc_eq_zero, dc_dir_first, ?_,
    fun l => ⟨sortEntries_perm l, sortEntries_sorted l⟩⟩
  intro a b h
  refine ⟨dc_same_cat a b h, ?_⟩
  rw [dc_same_cat a b h]
  constructor
  · intro hlt
    rcases strcmpL_cases a.d_name b.d_name with h1 | h1 | h1
    · exact (strcmpL_eq_neg_one_iff _ _).mp h1
    · omega
    · omega
  · intro hl
    rw [(strcmpL_eq_neg_one_iff _ _).mpr hl]
    decide

/-- Witness for C3 at concrete entries: the directory entry named d sorts
before the regular file named f even though d is lexicographically larger
would not matter, the file f and link l of equal category compare by name,
comparing an entry with itself gives zero, and transitivity holds at a
concrete chain. -/
theorem c3_sort_order_witness :
    (dirent_compare eDIR eREG = -1 ∧ dirent_compare eREG eDIR = 1) ∧
    (dirent_compare eREG eLNK = strcmpL eREG.d_name eLNK.d_name ∧
      (dirent_compare eREG eLNK < 0 ↔ byteLexLt eREG.d_name eLNK.d_name)) ∧
    (eREG.d_name = eREG.d_name ∧ (eREG.d_type = DT_DIR ↔ eREG.d_type = DT_DIR)) ∧
    dirent_compare eREG eLNK ≤ 0 :=
  ⟨c3_sort_order.2.2.2.2.1 eDIR eREG (by decide) (by decide),
   c3_sort_order.2.2.2.2.2.1 eREG eLNK (by decide),
   c3_sort_order.2.2.2.1 eREG eREG (by decide),
   c3_sort_order.2.1 eREG eREG eLNK (by decide) (by decide)⟩

/-- C8 counterexample: the claim that for every parent path and child name
the composed path has exactly one separator between parent and child fails
at explicit inputs. A parent already ending in a doubled separator keeps
both separators at the junction, so the composition is not the trimmed
parent, one slash and the child; and an empty parent yields no separator
at all. Bytes: 97 is the letter a, 98 the letter b, 47 the slash. -/
theorem c8_counterexample :
    pathJoin [97, 47, 47] [98] = [97, 47, 47, 98] ∧
    stripTrailSlashes [97, 47, 47] ++ slash :: [98] = [97, 47, 98] ∧
    pathJoin [97, 47, 47] [98] ≠ stripTrailSlashes [97, 47, 47] ++ slash :: [98] ∧
    pathJoin [] [98] = [98] ∧
    pathJoin [] [98] ≠ stripTrailSlashes [] ++ slash :: [98] := by
  decide

/-- C8 amended: for every nonempty parent path that ends in at most one
separator, the composed path is the parent without its trailing separator
followed by exactly one separator and the child, and the trimmed parent
does not itself end in a separator, so the junction carries exactly one
separator; the composition inserts a separator exactly when the parent
does not already end in one. -/
theorem c8_amended_join (p c : Str) (hne : p ≠ []) (hrun : trailingSlashRun p ≤ 1) :
    pathJoin p c = stripTrailSlashes p ++ slash :: c ∧
    endsInSlash (stripTrailSlashes p) = false := by
  have hrevne : p.reverse ≠ [] := by
    intro h
    exact hne (List.reverse_eq_nil_iff.mp h)
  obtain ⟨rb, t, hrev⟩ : ∃ rb t, p.reverse = rb :: t := by
    cases hp : p.reverse with
    | nil => exact absurd hp hrevne
    | cons rb t => exact ⟨rb, t, rfl⟩
  have hp : p = (rb :: t).reverse := by rw [← hrev, List.reverse_reverse]
  have hlast : p.getLast? = some rb := by
    rw [← List.head?_reverse, hrev]
    rfl
  have hlen : 0 < p.length := List.length_pos.mpr hne
  have hstrip : stripTrailSlashes p = (List.dropWhile (fun b => b == slash) (rb :: t)).reverse := by
    rw [stripTrailSlashes, hrev]
  have hrun2 : trailingSlashRun p = (List.takeWhile (fun b => b == slash) (rb :: t)).length := by
    rw [trailingSlashRun, hrev]
  by_cases hb : rb = slash
  · subst hb
    have hjoin : pathJoin p c = p ++ c := by
      rw [pathJoin, if_neg]
      simp [endsInSlash, hlast]
    have htake : List.takeWhile (fun b => b == slash) t = [] := by
      rw [hrun2] at hrun
      simp only [List.takeWhile_cons, beq_self_eq_true, if_true, List.length_cons] at hrun
      exact List.length_eq_zero.mp (by omega)
    cases t with
    | nil =>
      have hpv : p = [slash] := by simpa using hp
      subst hpv
      constructor
      · rw [hjoin, hstrip]
        simp [List.dropWhile]
      · rw [hstrip]
        simp [List.dropWhile, endsInSlash]
    | cons t0 ts =>
      have ht0 : (t0 == slash) = false := by
        by_cases h0 : t0 = slash
        · subst h0
          simp [List.takeWhile_cons] at htake
        · simp [h0]
      have hdrop : List.dropWhile (fun b => b == slash) (slash :: t0 :: ts) = t0 :: ts := by
        simp [List.dropWhile_cons, ht0]
      constructor
      · rw [hjoin, hstrip, hdrop, hp]
        simp [List.reverse_cons]
      · rw [hstrip, hdrop, endsInSlash, List.getLast?_reverse]
        simp [ht0]
  · have hends : endsInSlash p = false := by
      simp [endsInSlash, hlast, hb]
    have hjoin : pathJoin p c = p ++ slash :: c := by
      rw [pathJoin, if_pos]
      simp [hends, hlen]
    have hdrop : List.dropWhile (fun b => b == slash) (rb :: t) = rb :: t := by
      simp [List.dropWhile_cons, hb]
    constructor
    · rw [hjoin, hstrip, hdrop, ← hp]
    · rw [hstrip, hdrop, ← hp, hends]

/-- Witness for C8 amended at a concrete parent and child: parent the
single letter a, child the single letter b, composed path a slash b. -/
theorem c8_amended_join_witness :
    pathJoin [97] [98] = stripTrailSlashes [97] ++ slash :: [98] ∧
    endsInSlash (stripTrailSlashes [97]) = false :=
  c8_amended_join [97] [98] (by decide) (by decide)

theorem sizeOf_list_perm {l1 l2 : List (DEntData × Node)} (h : l1.Perm l2) :
    sizeOf l1 = sizeOf l2 := by
  induction h with
  | nil => rfl
  | cons x _ ih => simp [ih]
  | swap x y l => simp; omega
  | trans _ _ ih1 ih2 => omega

theorem sizeOf_filter_le (p : DEntData × Node → Bool) (l : List (DEntData × Node)) :
    sizeOf (l.filter p) ≤ sizeOf l := by
  induction l with
  | nil => simp
  | cons a t ih =>
    rw [List.filter_cons]
    by_cases hpa : p a = true
    · rw [if_pos hpa]
      simp only [List.cons.sizeOf_spec]
      omega
    · rw [if_neg hpa]
      simp only [List.cons.sizeOf_spec]
      omega

theorem sizeOf_collect_le (l : List (DEntData × Node)) :
    sizeOf (collectEntries l) ≤ sizeOf l := by
  rw [collectEntries]
  exact sizeOf_filter_le _ l

theorem sizeOf_sortEntries_eq (l : List (DEntData × Node)) :
    sizeOf (sortEntries l) = sizeOf l :=
  sizeOf_list_perm (sortEntries_perm l)

theorem printsCount_nil : printsCount [] = 0 := rfl

theorem opensCount_nil : opensCount [] = 0 := rfl

theorem closesCount_nil : closesCount [] = 0 := rfl

theorem balance_aux : ∀ k : Nat,
    (∀ n : Node, sizeOf n ≤ k → ∀ dn pstr s flags,
      opensCount (processDir dn pstr n s flags).2 =
        closesCount (processDir dn pstr n s flags).2) ∧
    (∀ l : List (DEntData × Node), sizeOf l ≤ k → ∀ p s flags,
      opensCount (visitEntries l p s flags).2 =
        closesCount (visitEntries l p s flags).2) := by
  intro k
  induction k using Nat.strong_induction_on with
  | _ k ih =>
    constructor
    · intro n hn dn pstr s flags
      cases n with
      | unopenable => simp [processDir_unopenable, opensCount, closesCount]
      | dir raw =>
        rw [processDir_dir]
        by_cases hlen : (collectEntries raw).length = 0
        · rw [if_pos hlen]
          simp [opensCount, closesCount, List.countP_cons]
        · rw [if_neg hlen]
          have hsz : sizeOf (sortEntries (collectEntries raw)) < k := by
            have h1 := sizeOf_sortEntries_eq (collectEntries raw)
            have h2 := sizeOf_collect_le raw
            have h3 : sizeOf (Node.dir raw) = 1 + sizeOf raw := by simp
            omega
          have hv := (ih _ hsz).2 (sortEntries (collectEntries raw)) (le_refl _)
            (pathJoin pstr dn) s flags
          simp only [opensCount, closesCount, List.countP_cons, List.countP_append] at hv ⊢
          simp at hv ⊢
          omega
    · intro l hl p s flags
      cases l with
      | nil => simp [visitEntries_nil, opensCount, closesCount]
      | cons e rest =>
        obtain ⟨d, cn⟩ := e
        simp only [List.cons.sizeOf_spec, Prod.mk.sizeOf_spec] at hl
        have hszcn : sizeOf cn < k := by omega
        have hszrest : sizeOf rest < k := by omega
        rw [visitEntries_cons]
        have hchild : opensCount (childStep d cn p s flags).2 =
            closesCount (childStep d cn p s flags).2 := by
          rw [childStep]
          by_cases hg : d.d_type = DT_DIR ∧ d.d_name ≠ dotdot ∧ d.d_name ≠ dot
          · rw [if_pos hg]
            exact (ih _ hszcn).1 cn (le_refl _) d.d_name p (updateStats s d) flags
          · rw [if_neg hg]
            simp [opensCount, closesCount]
        have hrest := (ih _ hszrest).2 rest (le_refl _) p (childStep d cn p s flags).1 flags
        simp only [opensCount, closesCount, List.countP_cons, List.countP_append]
          at hchild hrest ⊢
        simp at hchild hrest ⊢
        omega

/-- C9: on every control path out of processDir on which the directory was
opened, the handle is closed: in the whole event trace the number of
closedir events equals the number of successful opendir events, and the
trace of an invocation is either empty (opendir failed, no handle
acquired) or starts with the opendir of the composed path and ends with
its matching closedir, for the empty-directory exit and the full
iteration exit alike. -/
theorem c9_handle_balance (dn pstr : Str) (n : Node) (s : Summary) (flags : Nat) :
    opensCount (processDir dn pstr n s flags).2 =
      closesCount (processDir dn pstr n s flags).2 ∧
    ((processDir dn pstr n s flags).2 = [] ∨
      ∃ evs, (processDir dn pstr n s flags).2 =
        Ev.eopen (pathJoin pstr dn) :: (evs ++ [Ev.eclose (pathJoin pstr dn)])) := by
  constructor
  · exact (balance_aux (sizeOf n)).1 n (le_refl _) dn pstr s flags
  · cases n with
    | unopenable => left; simp [processDir_unopenable]
    | dir raw =>
      right
      rw [processDir_dir]
      by_cases hlen : (collectEntries raw).length = 0
      · rw [if_pos hlen]
        exact ⟨[], rfl⟩
      · rw [if_neg hlen]
        exact ⟨_, rfl⟩

theorem flags_aux : ∀ k : Nat,
    (∀ n : Node, sizeOf n ≤ k → ∀ dn pstr s f1 f2,
      processDir dn pstr n s f1 = processDir dn pstr n s f2) ∧
    (∀ l : List (DEntData × Node), sizeOf l ≤ k → ∀ p s f1 f2,
      visitEntries l p s f1 = visitEntries l p s f2) := by
  intro k
  induction k using Nat.strong_induction_on with
  | _ k ih =>
    constructor
    · intro n hn dn pstr s f1 f2
      cases n with
      | unopenable => rw [processDir_unopenable, processDir_unopenable]
      | dir raw =>
        rw [processDir_dir, processDir_dir]
        by_cases hlen : (collectEntries raw).length = 0
        · rw [if_pos hlen, if_pos hlen]
        · rw [if_neg hlen, if_neg hlen]
          have hsz : sizeOf (sortEntries (collectEntries raw)) < k := by
            have h1 := sizeOf_sortEntries_eq (collectEntries raw)
            have h2 := sizeOf_collect_le raw
            have h3 : sizeOf (Node.dir raw) = 1 + sizeOf raw := by simp
            omega
          rw [(ih _ hsz).2 (sortEntries (collectEntries raw)) (le_refl _)
            (pathJoin pstr dn) s f1 f2]
    · intro l hl p s f1 f2
      cases l with
      | nil => rw [visitEntries_nil, visitEntries_nil]
      | cons e rest =>
        obtain ⟨d, cn⟩ := e
        simp only [List.cons.sizeOf_spec, Prod.mk.sizeOf_spec] at hl
        have hszcn : sizeOf cn < k := by omega
        have hszrest : sizeOf rest < k := by omega
        rw [visitEntries_cons, visitEntries_cons]
        have hchild : childStep d cn p s f1 = childStep d cn p s f2 := by
          rw [childStep, childStep]
          by_cases hg : d.d_type = DT_DIR ∧ d.d_name ≠ dotdot ∧ d.d_name ≠ dot
          · rw [if_pos hg, if_pos hg]
            exact (ih _ hszcn).1 cn (le_refl _) d.d_name p (updateStats s d) f1 f2
          · rw [if_neg hg, if_neg hg]
        rw [hchild,
          (ih _ hszrest).2 rest (le_refl _) p (childStep d cn p s f2).1 f1 f2]

/-- C10: the flags parameter has no influence on processDir: for every
directory name, parent path, filesystem node and starting accumulator,
two runs that differ only in the flags argument return the same final
statistics and the same event trace, printed lines included. -/
theorem c10_flags_irrelevant (dn pstr : Str) (n : Node) (s : Summary) (f1 f2 : Nat) :
    processDir dn pstr n s f1 = processDir dn pstr n s f2 :=
  (flags_aux (sizeOf n)).1 n (le_refl _) dn pstr s f1 f2

theorem countsSum_updateStats (s : Summary) (d : DEntData) :
    countsSum (updateStats s d) = countsSum s + (if tracked d then 1 else 0) := by
  rw [updateStats]
  split_ifs with h1 h2 h3 h4 h5 <;> simp_all [countsSum, tracked] <;> omega

theorem allTrackedL_iff (l : List (DEntData × Node)) :
    allTrackedL l = true ↔ ∀ e ∈ l, tracked e.1 = true ∧ allTracked e.2 = true := by
  induction l with
  | nil => simp [allTrackedL]
  | cons e rest ih =>
    obtain ⟨d, n⟩ := e
    simp only [allTrackedL, Bool.and_eq_true, ih, List.mem_cons]
    constructor
    · rintro ⟨⟨hd, hn⟩, hrest⟩ e he
      rcases he with rfl | he
      · exact ⟨hd, hn⟩
      · exact hrest e he
    · intro h
      exact ⟨⟨(h _ (Or.inl rfl)).1, (h _ (Or.inl rfl)).2⟩, fun e he => h e (Or.inr he)⟩

theorem counts_aux : ∀ k : Nat,
    (∀ n : Node, sizeOf n ≤ k → ∀ dn pstr s flags,
      countsSum (processDir dn pstr n s flags).1 ≤
        countsSum s + printsCount (processDir dn pstr n s flags).2 ∧
      (allTracked n = true →
        countsSum (processDir dn pstr n s flags).1 =
          countsSum s + printsCount (processDir dn pstr n s flags).2)) ∧
    (∀ l : List (DEntData × Node), sizeOf l ≤ k → ∀ p s flags,
      countsSum (visitEntries l p s flags).1 ≤
        countsSum s + printsCount (visitEntries l p s flags).2 ∧
      ((∀ e ∈ l, tracked e.1 = true ∧ allTracked e.2 = true) →
        countsSum (visitEntries l p s flags).1 =
          countsSum s + printsCount (visitEntries l p s flags).2)) := by
  intro k
  induction k using Nat.strong_induction_on with
  | _ k ih =>
    constructor
    · intro n hn dn pstr s flags
      cases n with
      | unopenable => simp [processDir_unopenable, printsCount]
      | dir raw =>
        rw [processDir_dir]
        by_cases hlen : (collectEntries raw).length = 0
        · rw [if_pos hlen]
          simp [printsCount, List.countP_cons]
        · rw [if_neg hlen]
          have hsz : sizeOf (sortEntries (collectEntries raw)) < k := by
            have h1 := sizeOf_sortEntries_eq (collectEntries raw)
            have h2 := sizeOf_collect_le raw
            have h3 : sizeOf (Node.dir raw) = 1 + sizeOf raw := by simp
            omega
          have hv := (ih _ hsz).2 (sortEntries (collectEntries raw)) (le_refl _)
            (pathJoin pstr dn) s flags
          have hpr : printsCount
              (Ev.eopen (pathJoin pstr dn) ::
                ((visitEntries (sortEntries (collectEntries raw)) (pathJoin pstr dn) s
                  flags).2 ++ [Ev.eclose (pathJoin pstr dn)])) =
              printsCount (visitEntries (sortEntries (collectEntries raw))
                (pathJoin pstr dn) s flags).2 := by
            simp [printsCount, List.countP_cons, List.countP_append]
          rw [hpr]
          constructor
          · exact hv.1
          · intro htr
            apply hv.2
            intro e he
            have h2 : e ∈ collectEntries raw :=
              (sortEntries_perm (collectEntries raw)).mem_iff.mp he
            have h3 : e ∈ raw := List.mem_of_mem_filter h2
            have htr2 : allTrackedL raw = true := by
              simpa [allTracked] using htr
            exact (allTrackedL_iff raw).mp htr2 e h3
    · intro l hl p s flags
      cases l with
      | nil => simp [visitEntries_nil, printsCount]
      | cons e rest =>
        obtain ⟨d, cn⟩ := e
        simp only [List.cons.sizeOf_spec, Prod.mk.sizeOf_spec] at hl
        have hszcn : sizeOf cn < k := by omega
        have hszrest : sizeOf rest < k := by omega
        rw [visitEntries_cons]
        dsimp only
        have hupd := countsSum_updateStats s d
        have hchild_le : countsSum (childStep d cn p s flags).1 ≤
            countsSum s + 1 + printsCount (childStep d cn p s flags).2 := by
          rw [childStep]
          by_cases hg : d.d_type = DT_DIR ∧ d.d_name ≠ dotdot ∧ d.d_name ≠ dot
          · rw [if_pos hg]
            have := ((ih _ hszcn).1 cn (le_refl _) d.d_name p (updateStats s d) flags).1
            have hb : (if tracked d then (1:Nat) else 0) ≤ 1 := by split <;> omega
            omega
          · rw [if_neg hg]
            have hb : (if tracked d then (1:Nat) else 0) ≤ 1 := by split <;> omega
            simp [printsCount]
            omega
        have hchild_eq : tracked d = true → allTracked cn = true →
            countsSum (childStep d cn p s flags).1 =
              countsSum s + 1 + printsCount (childStep d cn p s flags).2 := by
          intro htd htc
          rw [childStep]
          by_cases hg : d.d_type = DT_DIR ∧ d.d_name ≠ dotdot ∧ d.d_name ≠ dot
          · rw [if_pos hg]
            have := ((ih _ hszcn).1 cn (le_refl _) d.d_name p (updateStats s d) flags).2 htc
            rw [htd] at hupd
            simp at hupd
            omega
          · rw [if_neg hg]
            rw [htd] at hupd
            simp at hupd
            simp [printsCount]
            omega
        have hrest := (ih _ hszrest).2 rest (le_refl _) p (childStep d cn p s flags).1 flags
        have hpr : printsCount
            (Ev.eprint d.d_name ::
              ((childStep d cn p s flags).2 ++
               (visitEntries rest p (childStep d cn p s flags).1 flags).2)) =
            1 + printsCount (childStep d cn p s flags).2 +
              printsCount (visitEntries rest p (childStep d cn p s flags).1 flags).2 := by
          simp [printsCount, List.countP_cons, List.countP_append]
          omega
        rw [hpr]
        constructor
        · have := hrest.1
          omega
        · intro h
          have hd := h (d, cn) (List.mem_cons_self _ _)
          have hre := hrest.2 fun e he => h e (List.mem_cons_of_mem _ he)
          have hce := hchild_eq hd.1 hd.2
          omega

/-- C2 amended: each visited entry of one of the five classified d_types
(regular file, directory, symbolic link, fifo, socket) increments exactly
one type counter, while a visited entry of any other d_type increments
none, because the switch has no default arm; hence the sum of the
per-type counts equals the number of printed entry lines whenever every
entry of the traversed tree has one of the five classified d_types, and
in general that sum is at most the number of printed lines. -/
theorem c2_amended_counts (dn pstr : Str) (n : Node) (s : Summary) (flags : Nat) :
    countsSum (processDir dn pstr n s flags).1 ≤
      countsSum s + printsCount (processDir dn pstr n s flags).2 ∧
    (allTracked n = true →
      countsSum (processDir dn pstr n s flags).1 =
        countsSum s + printsCount (processDir dn pstr n s flags).2) :=
  (counts_aux (sizeOf n)).1 n (le_refl _) dn pstr s flags

/-- Witness for C2 amended on a concrete two-level tree of a directory and
a regular file, all of counted types: the counter sum equals the printed
line count. -/
theorem c2_amended_counts_witness :
    countsSum (processDir [114] [] wTree zeroSummary 0).1 =
      countsSum zeroSummary + printsCount (processDir [114] [] wTree zeroSummary 0).2 :=
  (c2_amended_counts [114] [] wTree zeroSummary 0).2
    (by simp [wTree, allTracked, allTrackedL, tracked, eDIR, eREG, DT_DIR, DT_REG,
      DT_LNK, DT_FIFO, DT_SOCK])

/-- C2 counterexample: a root directory holding a single character-device
entry refutes the claim that every visited entry increments one counter
and that the per-type counts sum to the printed line count: the entry is
printed, one line, but the switch of processDir counts it nowhere, so the
sum of the five counters stays zero. -/
theorem c2_counterexample :
    countsSum (processDir [114] [] (Node.dir [(eCHR, Node.unopenable)])
      zeroSummary 0).1 = 0 ∧
    printsCount (processDir [114] [] (Node.dir [(eCHR, Node.unopenable)])
      zeroSummary 0).2 = 1 := by
  simp [processDir, visitEntries, collectEntries, sortEntries, updateStats, pathJoin,
    endsInSlash, dot, dotdot, eCHR, DT_CHR, DT_REG, DT_DIR, DT_LNK, DT_FIFO, DT_SOCK,
    countsSum, printsCount, zeroSummary, List.countP_cons]

theorem pruneL_eq_map (l : List (DEntData × Node)) : pruneL l = l.map pruneEnt := by
  induction l with
  | nil => simp [pruneL]
  | cons e rest ih =>
    obtain ⟨d, n⟩ := e
    simp [pruneL, pruneEnt, ih]

theorem length_pruneL (l : List (DEntData × Node)) : (pruneL l).length = l.length := by
  rw [pruneL_eq_map]
  simp

theorem collect_pruneL (l : List (DEntData × Node)) :
    collectEntries (pruneL l) = pruneL (collectEntries l) := by
  rw [pruneL_eq_map, pruneL_eq_map, collectEntries, collectEntries, List.filter_map]
  congr 1

theorem orderedInsert_pruneEnt (x : DEntData × Node) (l : List (DEntData × Node)) :
    List.orderedInsert dcLe (pruneEnt x) (l.map pruneEnt) =
      (List.orderedInsert dcLe x l).map pruneEnt := by
  induction l with
  | nil => simp
  | cons y ys ih =>
    simp only [List.map_cons, List.orderedInsert]
    by_cases h : dcLe x y
    · rw [if_pos (show dcLe (pruneEnt x) (pruneEnt y) from h), if_pos h]
      simp
    · rw [if_neg (show ¬dcLe (pruneEnt x) (pruneEnt y) from h), if_neg h]
      simp [ih]

theorem sortEntries_pruneL (l : List (DEntData × Node)) :
    sortEntries (pruneL l) = pruneL (sortEntries l) := by
  rw [pruneL_eq_map, pruneL_eq_map, sortEntries, sortEntries]
  induction l with
  | nil => simp
  | cons x xs ih =>
    simp only [List.map_cons, List.insertionSort]
    rw [ih, orderedInsert_pruneEnt]

theorem prune_aux : ∀ k : Nat,
    (∀ n : Node, sizeOf n ≤ k → ∀ dn pstr s flags,
      processDir dn pstr (prune n) s flags = processDir dn pstr n s flags) ∧
    (∀ l : List (DEntData × Node), sizeOf l ≤ k → ∀ p s flags,
      visitEntries (pruneL l) p s flags = visitEntries l p s flags) := by
  intro k
  induction k using Nat.strong_induction_on with
  | _ k ih =>
    constructor
    · intro n hn dn pstr s flags
      cases n with
      | unopenable => rfl
      | dir raw =>
        have hpr : prune (Node.dir raw) = Node.dir (pruneL raw) := by simp [prune]
        rw [hpr, processDir_dir, processDir_dir]
        have hcol : collectEntries (pruneL raw) = pruneL (collectEntries raw) :=
          collect_pruneL raw
        have hlen : (collectEntries (pruneL raw)).length = (collectEntries raw).length := by
          rw [hcol, length_pruneL]
        by_cases h0 : (collectEntries raw).length = 0
        · rw [if_pos (by omega), if_pos h0]
        · rw [if_neg (by omega), if_neg h0]
          rw [hcol, sortEntries_pruneL]
          have hsz : sizeOf (sortEntries (collectEntries raw)) < k := by
            have h1 := sizeOf_sortEntries_eq (collectEntries raw)
            have h2 := sizeOf_collect_le raw
            have h3 : sizeOf (Node.dir raw) = 1 + sizeOf raw := by simp
            omega
          rw [(ih _ hsz).2 (sortEntries (collectEntries raw)) (le_refl _)
            (pathJoin pstr dn) s flags]
    · intro l hl p s flags
      cases l with
      | nil => rfl
      | cons e rest =>
        obtain ⟨d, cn⟩ := e
        simp only [List.cons.sizeOf_spec, Prod.mk.sizeOf_spec] at hl
        have hszcn : sizeOf cn < k := by omega
        have hszrest : sizeOf rest < k := by omega
        have hpl : pruneL ((d, cn) :: rest) =
            (d, if d.d_type = DT_DIR then prune cn else Node.unopenable) :: pruneL rest := by
          simp [pruneL]
        rw [hpl, visitEntries_cons, visitEntries_cons]
        have hchild : childStep d (if d.d_type = DT_DIR then prune cn else Node.unopenable)
            p s flags = childStep d cn p s flags := by
          rw [childStep, childStep]
          by_cases hg : d.d_type = DT_DIR ∧ d.d_name ≠ dotdot ∧ d.d_name ≠ dot
          · rw [if_pos hg, if_pos hg, if_pos hg.1]
            exact (ih _ hszcn).1 cn (le_refl _) d.d_name p (updateStats s d) flags
          · rw [if_neg hg, if_neg hg]
        rw [hchild,
          (ih _ hszrest).2 rest (le_refl _) p (childStep d cn p s flags).1 flags]

/-- C7: the traversal never recurses into an entry whose d_type is not
DT_DIR: replacing every subtree that sits behind a non-directory-typed
entry by an unopenable node, which the prune function does, leaves the
result of processDir, statistics and event trace alike, unchanged. In
particular a symbolic link, whose dirent carries d_type DT_LNK even when
its target is a directory, is never followed, and the recursion descends
only through nodes of the finite directory skeleton, so no symlink cycle
can drive it: the embedded processDir is total by structural descent. -/
theorem c7_no_recursion_into_nondir (dn pstr : Str) (n : Node) (s : Summary) (flags : Nat) :
    processDir dn pstr (prune n) s flags = processDir dn pstr n s flags :=
  (prune_aux (sizeOf n)).1 n (le_refl _) dn pstr s flags

/-- C1: the claim that processDir adds each visited regular file's logical
byte size to size and its 512-byte block count to blocks is contradicted
by the code: the DT_REG arm adds the dirent record length d_reclen to
size, and no arm of the switch ever touches blocks. At a root holding the
single regular file f with dirent record length 24 but logical size 1000
bytes and 8 blocks, the traversal counts the file yet records size 24,
not 1000, and blocks 0, not 8. The declared meaning of the summary
fields, total size in bytes and total number of 512-byte blocks, makes
the intent plain, so the code is in the wrong. -/
theorem c1_size_blocks_bug :
    (processDir [114] [] (Node.dir [(eREG, Node.unopenable)]) zeroSummary 0).1.files = 1 ∧
    (processDir [114] [] (Node.dir [(eREG, Node.unopenable)]) zeroSummary 0).1.size = 24 ∧
    (processDir [114] [] (Node.dir [(eREG, Node.unopenable)]) zeroSummary 0).1.blocks = 0 ∧
    eREG.d_reclen = 24 ∧ eREG.st_size = 1000 ∧ eREG.st_blocks = 8 ∧
    (processDir [114] [] (Node.dir [(eREG, Node.unopenable)]) zeroSummary 0).1.size ≠
      eREG.st_size ∧
    (processDir [114] [] (Node.dir [(eREG, Node.unopenable)]) zeroSummary 0).1.blocks ≠
      eREG.st_blocks := by
  simp [processDir, visitEntries, collectEntries, sortEntries, updateStats, pathJoin,
    endsInSlash, dot, dotdot, eREG, DT_REG, DT_DIR, DT_LNK, DT_FIFO, DT_SOCK, zeroSummary]

/-- C4: the claim that entry types are resolved through a stat-style
per-entry lookup with an other bucket for failures is contradicted by the
code: processDir switches on the d_type field of the dirent record and
never calls stat, and struct summary has no other bucket at all. An entry
whose dirent d_type is DT_UNKNOWN, as filesystems that do not fill the
field produce, is printed but counted nowhere, even though the underlying
file is a regular file that a stat lookup would have classified. -/
theorem c4_dtype_bug :
    (processDir [114] [] (Node.dir [(eUNK, Node.unopenable)]) zeroSummary 0).1 =
      zeroSummary ∧
    printsCount
      (processDir [114] [] (Node.dir [(eUNK, Node.unopenable)]) zeroSummary 0).2 = 1 := by
  simp [processDir, visitEntries, collectEntries, sortEntries, updateStats, pathJoin,
    endsInSlash, dot, dotdot, eUNK, DT_UNKNOWN, DT_REG, DT_DIR, DT_LNK, DT_FIFO,
    DT_SOCK, printsCount, zeroSummary, List.countP_cons]

theorem addSummary_zero_left (s : Summary) : addSummary zeroSummary s = s := by
  cases s
  simp [addSummary, zeroSummary]

theorem addSummary_zero_right (s : Summary) : addSummary s zeroSummary = s := by
  cases s
  simp [addSummary, zeroSummary]

theorem addSummary_assoc (a b c : Summary) :
    addSummary (addSummary a b) c = addSummary a (addSummary b c) := by
  cases a
  cases b
  cases c
  simp [addSummary]
  omega

theorem sumSummaries_cons (s : Summary) (L : List Summary) :
    sumSummaries (s :: L) = addSummary s (sumSummaries L) := rfl

theorem sumSummaries_append (A B : List Summary) :
    sumSummaries (A ++ B) = addSummary (sumSummaries A) (sumSummaries B) := by
  induction A with
  | nil => simp [sumSummaries, addSummary_zero_left]
  | cons s rest ih =>
    rw [List.cons_append, sumSummaries_cons, sumSummaries_cons, ih, addSummary_assoc]

theorem sumSummaries_fields (L : List Summary) :
    (sumSummaries L).files = (L.map fun s => s.files).sum ∧
    (sumSummaries L).dirs = (L.map fun s => s.dirs).sum ∧
    (sumSummaries L).links = (L.map fun s => s.links).sum ∧
    (sumSummaries L).fifos = (L.map fun s => s.fifos).sum ∧
    (sumSummaries L).socks = (L.map fun s => s.socks).sum ∧
    (sumSummaries L).size = (L.map fun s => s.size).sum ∧
    (sumSummaries L).blocks = (L.map fun s => s.blocks).sum := by
  induction L with
  | nil => simp [sumSummaries, zeroSummary]
  | cons s rest ih =>
    rw [sumSummaries_cons]
    simp only [List.map_cons, List.sum_cons, addSummary]
    omega

theorem runRootsAux_spec (flags : Nat) :
    ∀ (roots : List (Str × Node)) (tstat : Summary) (acc : List (Summary × List Ev)),
      (runRootsAux flags tstat acc roots).2 = acc ++ roots.map (rootOutput flags) ∧
      (runRootsAux flags tstat acc roots).1 =
        addSummary tstat (sumSummaries (roots.map fun rn => (rootOutput flags rn).1)) := by
  intro roots
  induction roots with
  | nil =>
    intro t acc
    simp [runRootsAux, sumSummaries, addSummary_zero_right]
  | cons rn rest ih =>
    intro t acc
    rw [runRootsAux]
    obtain ⟨ih1, ih2⟩ := ih (addSummary t (rootOutput flags rn).1) (acc ++ [rootOutput flags rn])
    constructor
    · rw [ih1]
      simp
    · rw [ih2]
      rw [List.map_cons, sumSummaries_cons, addSummary_assoc]

/-- C5: the grand total is the field-wise sum of the per-root statistics:
the root loop of main runs each root on a fresh zeroed accumulator, the
per-root outputs are exactly the map of rootOutput over the root list,
and every field of the final grand total equals the sum of that field
over the per-root accumulators, for any number of roots, in particular
for every count of one or more. -/
theorem c5_grand_total (roots : List (Str × Node)) (flags : Nat) :
    (runRoots roots flags).2 = roots.map (rootOutput flags) ∧
    (runRoots roots flags).1.files =
      (roots.map fun rn => (rootOutput flags rn).1.files).sum ∧
    (runRoots roots flags).1.dirs =
      (roots.map fun rn => (rootOutput flags rn).1.dirs).sum ∧
    (runRoots roots flags).1.links =
      (roots.map fun rn => (rootOutput flags rn).1.links).sum ∧
    (runRoots roots flags).1.fifos =
      (roots.map fun rn => (rootOutput flags rn).1.fifos).sum ∧
    (runRoots roots flags).1.socks =
      (roots.map fun rn => (rootOutput flags rn).1.socks).sum ∧
    (runRoots roots flags).1.size =
      (roots.map fun rn => (rootOutput flags rn).1.size).sum ∧
    (runRoots roots flags).1.blocks =
      (roots.map fun rn => (rootOutput flags rn).1.blocks).sum := by
  obtain ⟨h1, h2⟩ := runRootsAux_spec flags roots zeroSummary []
  have h3 := sumSummaries_fields (roots.map fun rn => (rootOutput flags rn).1)
  rw [runRoots, h2, addSummary_zero_left] at *
  refine ⟨by simpa using h1, ?_, ?_, ?_, ?_, ?_, ?_, ?_⟩ <;>
    simp only [List.map_map] at h3 <;>
    [exact h3.1.trans rfl; exact h3.2.1.trans rfl; exact h3.2.2.1.trans rfl;
     exact h3.2.2.2.1.trans rfl; exact h3.2.2.2.2.1.trans rfl;
     exact h3.2.2.2.2.2.1.trans rfl; exact h3.2.2.2.2.2.2.trans rfl]

/-- C6: the claim that a root path that does not exist or cannot be opened
prints nothing and leaves every statistic at zero is contradicted by the
code for single-component absolute roots. main applies basename and then
dirname to the same strdup buffer (dirtree.c lines 321-326); libgen.h
selects the POSIX basename, and on the path /nonexistent glibc dirname
writes its terminating NUL exactly at the byte basename returned, so the
leaf main passes to processDir is the empty string and the parent is the
root path: the composed path is the root directory itself, which opens,
and the program prints and counts the whole root filesystem for a root
that does not exist. With a root filesystem holding one regular file the
traversal prints one line and records one file, not nothing and zero. A
relative two-component root is split intact for contrast. The spec's
skip-and-continue contract for unavailable directories is the evident
intent, so the code is in the wrong. -/
theorem c6_root_split_bug :
    splitRoot badRoot = ([], [slash]) ∧
    pathJoin (splitRoot badRoot).2 (splitRoot badRoot).1 = [slash] ∧
    rootOutput 0 (badRoot, Node.dir [(eREG, Node.unopenable)]) =
      ({ zeroSummary with files := 1, size := 24 },
       [Ev.eopen [slash], Ev.eprint [102], Ev.eclose [slash]]) ∧
    (rootOutput 0 (badRoot, Node.dir [(eREG, Node.unopenable)])).1 ≠ zeroSummary ∧
    (rootOutput 0 (badRoot, Node.dir [(eREG, Node.unopenable)])).2 ≠ [] ∧
    splitRoot [97, 47, 98] = ([98], [97]) := by
  have hsplit : splitRoot badRoot = ([], [slash]) := by decide
  have heval : rootOutput 0 (badRoot, Node.dir [(eREG, Node.unopenable)]) =
      ({ zeroSummary with files := 1, size := 24 },
       [Ev.eopen [slash], Ev.eprint [102], Ev.eclose [slash]]) := by
    rw [rootOutput]
    dsimp only
    rw [hsplit]
    dsimp only
    simp [processDir, visitEntries, collectEntries, sortEntries, updateStats, pathJoin,
      endsInSlash, dot, dotdot, eREG, DT_REG, DT_DIR, DT_LNK, DT_FIFO, DT_SOCK,
      zeroSummary, slash]
  refine ⟨hsplit, by rw [hsplit]; decide, heval, by rw [heval]; decide,
    by rw [heval]; decide, by decide⟩

end Dirtree
